import Mathlib

/-!
Shallow embedding of the slideshow solver in `src/index.ts`
(Google Hash Code 2019 practice problem).

The file has two layers:

* the *engine* layer (`Photo`, `Slide`, `compareSlides`, `getScore`,
  `createVerticalSlide`, `createHorizontalSlide`, `calculateTagScore`,
  the stable ranking sort and `solve`), which models the pipeline that
  runs after a file has been parsed; tags are plain strings here, and
  the tag index is an association list from tag to the list of photo
  ids registered for it, mirroring the `Map<string, TagEntry>` of the
  source;

* the *reader* layer (`readPhoto`, `processLinesAux`, `readFileModel`),
  which models the line-by-line parsing and tag registration performed
  by `readFile`/`readPhoto`.  JavaScript strings are modelled as
  `List Char` and the JavaScript `undefined` value that can leak out of
  an out-of-range `parts[i + 2]` access is modelled by `Option`.
-/

/-- A photo record, as in the `Photo` interface of the source: an id
assigned by input order, an orientation string (`"H"` or `"V"` for
well-formed input), the list of tags parsed for it, and the mutable
`tagScore` field (initialised to 0). -/
structure Photo where
  id : Nat
  orientation : String
  tags : List String
  tagScore : Nat
deriving DecidableEq

/-- A slide, as in the `Slide` interface: its photos (one horizontal or
two vertical) and its tag list. -/
structure Slide where
  photos : List Photo
  tags : List String
deriving DecidableEq

/-- The tag index `allTags : Map<string, TagEntry>` of the engine layer,
modelled as an insertion-ordered association list from a tag to the
`photoIds` list of its `TagEntry`. -/
abbrev TagMap := List (String × List Nat)

/-- `allTags.get(tag)`: first entry with the given key, if any. -/
def tagLookup : TagMap → String → Option (List Nat)
  | [], _ => none
  | e :: es, t => if e.1 = t then some e.2 else tagLookup es t

/-- `calculateTagScore`: the sum, over the photo's tag list, of the
length of that tag's `photoIds` list in the index (a tag absent from the
index contributes nothing). -/
def calculateTagScore (tm : TagMap) (p : Photo) : Nat :=
  p.tags.foldl
    (fun score tag =>
      match tagLookup tm tag with
      | some ids => score + ids.length
      | none => score)
    0

/-- The number of tags of `a` (counted with multiplicity) that occur in
`b`: the `commonTags` loop of `compareSlides`. -/
def countIncl (a b : List String) : Nat :=
  (a.filter (fun t => decide (t ∈ b))).length

/-- The number of tags of `a` (counted with multiplicity) that do not
occur in `b`: the `uncommonLeftTags` / `uncommonRightTags` loops of
`compareSlides`. -/
def countExcl (a b : List String) : Nat :=
  (a.filter (fun t => !decide (t ∈ b))).length

/-- `compareSlides`: `Math.min(commonTags, uncommonLeftTags,
uncommonRightTags)` for two adjacent slides. -/
def compareSlides (slide1 slide2 : Slide) : Nat :=
  min (countIncl slide1.tags slide2.tags)
    (min (countExcl slide1.tags slide2.tags) (countExcl slide2.tags slide1.tags))

/-- `getScore`: the loop sums `compareSlides` over each consecutive pair
of slides, breaking before the last index; sequences of length 0 or 1
never enter the sum. -/
def getScore : List Slide → Nat
  | a :: b :: rest => compareSlides a b + getScore (b :: rest)
  | _ => 0

/-- First-occurrence deduplication, the behaviour of
`Array.from(new Set(tags).values())` in `createVerticalSlide`: a JS
`Set` keeps insertion order and ignores re-insertions. -/
def dedupFirstAux : List String → List String → List String
  | _, [] => []
  | seen, t :: ts =>
    if t ∈ seen then dedupFirstAux seen ts
    else t :: dedupFirstAux (t :: seen) ts

/-- First-occurrence deduplication of a tag list. -/
def dedupFirst (l : List String) : List String :=
  dedupFirstAux [] l

/-- `createVerticalSlide`: a slide made of two photos whose tag list is
the concatenation of the two photos' tags with duplicates removed
(first occurrence kept), via a JS `Set`. -/
def createVerticalSlide (photo1 photo2 : Photo) : Slide :=
  { photos := [photo1, photo2]
    tags := dedupFirst (photo1.tags ++ photo2.tags) }

/-- `createHorizontalSlide`: a singleton slide reusing the photo's tag
list unchanged. -/
def createHorizontalSlide (photo : Photo) : Slide :=
  { photos := [photo]
    tags := photo.tags }

/-- One insertion step of the ranking sort: walking the already-sorted
list, the new element is placed before the first element whose tag score
does not exceed its own.  Together with `rankPhotos` this is a stable
sort for the comparator `photo2.tagScore - photo1.tagScore` of the
source (`Array.prototype.sort` is stable per ES2019); the comparator
recomputes `calculateTagScore` on every call, which is what is compared
here. -/
def insertRanked (tm : TagMap) (x : Photo) : List Photo → List Photo
  | [] => [x]
  | y :: ys =>
    if calculateTagScore tm y ≤ calculateTagScore tm x then x :: y :: ys
    else y :: insertRanked tm x ys

/-- The photo ranking pass (`Photo Sort Algorithm 2`): a stable sort of
the catalog by descending `calculateTagScore`. -/
def rankPhotos (tm : TagMap) : List Photo → List Photo
  | [] => []
  | x :: xs => insertRanked tm x (rankPhotos tm xs)

/-- The vertical-slide loop of `solve`: photos are taken two at a time
(`i += 2`); when `i + 1` runs past the end the loop breaks, dropping a
final unpaired photo. -/
def makeVerticalSlides : List Photo → List Slide
  | p1 :: p2 :: rest => createVerticalSlide p1 p2 :: makeVerticalSlides rest
  | _ => []

/-- `solve`: rank the photos, split by orientation preserving order,
build singleton horizontal slides and paired vertical slides, and
concatenate horizontal slides before vertical slides
(`Slide Sort Algorithm 1`). -/
def solve (tm : TagMap) (ps : List Photo) : List Slide :=
  let ranked := rankPhotos tm ps
  let horizontalPhotos := ranked.filter (fun p => decide (p.orientation = "H"))
  let verticalPhotos := ranked.filter (fun p => decide (p.orientation = "V"))
  let horizontalSlides := horizontalPhotos.map createHorizontalSlide
  let verticalSlides := makeVerticalSlides verticalPhotos
  horizontalSlides ++ verticalSlides

/-!
## Reader layer

Models `readFile`/`readPhoto`.  A JavaScript string is a `List Char`;
the value of an out-of-range array access (`undefined`) is `none`.
`undefined` is a legal `Map` key in JavaScript, so the tag index built
during reading is keyed by `Option (List Char)`.
-/

/-- A token of a split line: `some` characters, or `none` for the
JavaScript `undefined` produced by reading past the end of the token
array. -/
abbrev Token := Option (List Char)

/-- A parsed photo record of the reader layer, mirroring the `Photo`
interface at parse time: tags may be `undefined` tokens. -/
structure PhotoP where
  id : Nat
  orientation : List Char
  tags : List Token
  tagScore : Nat
deriving DecidableEq

/-- The tag index built during reading, keyed by tokens. -/
abbrev TagMapP := List (Token × List Nat)

/-- `allTags.get(tag)` of the reader layer. -/
def tagGet : TagMapP → Token → Option (List Nat)
  | [], _ => none
  | e :: es, t => if e.1 = t then some e.2 else tagGet es t

/-- `allTags.set(tag, entry)`: an existing key is updated in place
(keeping its position), a new key is appended, as a JS `Map` does. -/
def tagSet : TagMapP → Token → List Nat → TagMapP
  | [], t, v => [(t, v)]
  | e :: es, t, v => if e.1 = t then (t, v) :: es else e :: tagSet es t v

/-- `String.prototype.split(" ")` for a single-character separator:
always returns at least one (possibly empty) token, consecutive
separators produce empty tokens. -/
def splitOnChar (sep : Char) : List Char → List (List Char)
  | [] => [[]]
  | c :: cs =>
    if c = sep then [] :: splitOnChar sep cs
    else
      match splitOnChar sep cs with
      | t :: ts => (c :: t) :: ts
      | [] => [[c]]

/-- The character set stripped by `String.prototype.trim()`: the
ECMAScript WhiteSpace characters (tab, vertical tab, form feed, space,
no-break space, Ogham space mark, the Zs spaces U+2000–U+200A, narrow
no-break space, medium mathematical space, ideographic space, zero-width
no-break space) together with the LineTerminator characters (line feed,
carriage return, line separator, paragraph separator). -/
def isWsChar (c : Char) : Bool :=
  c = ' ' || c = '\t' || c = '\r' || c = '\n' ||
    c.toNat = 11 || c.toNat = 12 || c.toNat = 160 || c.toNat = 5760 ||
    (8192 ≤ c.toNat && c.toNat ≤ 8202) ||
    c.toNat = 8232 || c.toNat = 8233 || c.toNat = 8239 ||
    c.toNat = 8287 || c.toNat = 12288 || c.toNat = 65279

/-- `String.prototype.trim()`: strip leading and trailing whitespace. -/
def trimChars (s : List Char) : List Char :=
  ((s.dropWhile isWsChar).reverse.dropWhile isWsChar).reverse

/-- The numeric value of a digit string. -/
def digitsToNat (ds : List Char) : Nat :=
  ds.foldl (fun n c => n * 10 + (c.toNat - 48)) 0

/-- Models `parseFloat(parts[1])` as used to bound the tag-reading loop
`for (i = 0; i < numTags; i++)`, as the number of iterations that loop
performs.  The model is exact on the token shapes it is stated for: a
missing token (`parseFloat(undefined)`) or a token with no leading
digits and hence no decimal-literal prefix starting with a digit gives
`NaN`, whose loop runs zero times; a plain digit string — the
documented `<tagCount:int>` shape — gives its integer value.  Tokens in
other numeric shapes (signs, fractions, exponents, `Infinity`, leading
whitespace inside a token) are not modelled; theorems that quantify
over whole files therefore confine their hypotheses to the digit-string
shape via `digitCountToken`. -/
def parseCount : Token → Nat
  | none => 0
  | some cs =>
    let ds := cs.takeWhile Char.isDigit
    if ds = [] then 0 else digitsToNat ds

/-- The tag-count token of a line is present, non-empty and consists of
decimal digits only — the documented `<tagCount:int>` shape, on which
`parseCount` coincides with the `parseFloat` loop bound of the
source. -/
def digitCountToken (line : List Char) : Bool :=
  match (splitOnChar ' ' (trimChars line)).get? 1 with
  | some ds => !decide (ds = []) && ds.all Char.isDigit
  | none => false

/-- `readPhoto`: split the line on spaces, take `parts[0]` as the
orientation, `parseFloat(parts[1])` as the tag count, and collect
`parts[i + 2]` for `i` below the count (out-of-range reads give
`undefined`). -/
def readPhoto (line : List Char) (nextIndex : Nat) : PhotoP :=
  let parts := splitOnChar ' ' line
  let numTags := parseCount (parts.get? 1)
  { id := nextIndex
    orientation := parts.headD []
    tags := (List.range numTags).map (fun i => parts.get? (i + 2))
    tagScore := 0 }

/-- One registration step of the loop in `readFile`: for a tag with an
existing entry the photo id is pushed onto its `photoIds`, otherwise a
fresh entry holding just this id is created; either way the entry is
`set` back into the map. -/
def registerTag (m : TagMapP) (id : Nat) (tag : Token) : TagMapP :=
  match tagGet m tag with
  | some ids => tagSet m tag (ids ++ [id])
  | none => tagSet m tag [id]

/-- `photo.tags.forEach(...)` in `readFile`: register the photo under
each of its tags in turn. -/
def registerPhoto (m : TagMapP) (p : PhotoP) : TagMapP :=
  p.tags.foldl (fun m tag => registerTag m p.id tag) m

/-- The reading loop of `readFile` over the lines after the count line:
falsy (empty) lines are skipped, every other line is trimmed, parsed
into a photo with the next sequential id, registered in the tag index
and pushed onto the photo list. -/
def processLinesAux : List (List Char) → Nat → List PhotoP → TagMapP →
    List PhotoP × TagMapP
  | [], _, ps, m => (ps, m)
  | line :: rest, nextIndex, ps, m =>
    if line = [] then processLinesAux rest nextIndex ps m
    else
      processLinesAux rest (nextIndex + 1)
        (ps ++ [readPhoto (trimChars line) nextIndex])
        (registerPhoto m (readPhoto (trimChars line) nextIndex))

/-- `readFile` on the contents of a file (after `readFileSync`): split
into lines, `shift` off the count line (whose value is never used), and
run the reading loop on the rest starting from id 0 with empty state. -/
def readFileModel (content : List Char) : List PhotoP × TagMapP :=
  processLinesAux (splitOnChar '\n' content).tail 0 [] []

/-- The ids, in input order, of the photos of `ps` whose tag list
contains the token `t` (the intended content of a `TagEntry`). -/
def carriers (ps : List PhotoP) (t : Token) : List Nat :=
  (ps.filter (fun p => decide (t ∈ p.tags))).map PhotoP.id

/-- A small concrete catalog (one horizontal photo, three vertical
photos) used to instantiate universally quantified theorems. -/
def ps8 : List Photo :=
  [⟨0, "H", ["a"], 0⟩, ⟨1, "V", ["b"], 0⟩, ⟨2, "V", ["b"], 0⟩, ⟨3, "V", ["c"], 0⟩]

/-!
## Lemmas and claim theorems
-/

theorem countIncl_eq_card (a b : List String) (ha : a.Nodup) :
    countIncl a b = (a.toFinset ∩ b.toFinset).card := by
  have hnd : (a.filter (fun t => decide (t ∈ b))).Nodup := ha.filter _
  have hts : (a.filter (fun t => decide (t ∈ b))).toFinset = a.toFinset ∩ b.toFinset := by
    ext x
    simp [List.mem_filter]
  rw [countIncl, ← List.toFinset_card_of_nodup hnd, hts]

theorem countExcl_eq_card (a b : List String) (ha : a.Nodup) :
    countExcl a b = (a.toFinset \ b.toFinset).card := by
  have hnd : (a.filter (fun t => !decide (t ∈ b))).Nodup := ha.filter _
  have hts : (a.filter (fun t => !decide (t ∈ b))).toFinset = a.toFinset \ b.toFinset := by
    ext x
    simp [List.mem_filter]
  rw [countExcl, ← List.toFinset_card_of_nodup hnd, hts]

/-- C1: for every pair of slides `A` and `B` (their tag lists being
sets, i.e. duplicate-free), `compareSlides` returns
`min(common, onlyA, onlyB)`, where `common` is the number of tags of `A`
occurring in `B`'s tag set, `onlyA` the number of tags of `A` not in
`B`'s tag set, and `onlyB` the number of tags of `B` not in `A`'s tag
set. -/
theorem claim1_compareSlides_min (A B : Slide)
    (hA : A.tags.Nodup) (hB : B.tags.Nodup) :
    compareSlides A B =
      min (A.tags.toFinset ∩ B.tags.toFinset).card
        (min (A.tags.toFinset \ B.tags.toFinset).card
          (B.tags.toFinset \ A.tags.toFinset).card) := by
  rw [compareSlides, countIncl_eq_card _ _ hA, countExcl_eq_card _ _ hA,
    countExcl_eq_card _ _ hB]

theorem claim1_witness :
    (Slide.mk [] ["a", "b"]).tags.Nodup ∧ (Slide.mk [] ["b", "c"]).tags.Nodup ∧
      compareSlides (Slide.mk [] ["a", "b"]) (Slide.mk [] ["b", "c"]) =
        min ((Slide.mk [] ["a", "b"]).tags.toFinset ∩ (Slide.mk [] ["b", "c"]).tags.toFinset).card
          (min ((Slide.mk [] ["a", "b"]).tags.toFinset \ (Slide.mk [] ["b", "c"]).tags.toFinset).card
            ((Slide.mk [] ["b", "c"]).tags.toFinset \ (Slide.mk [] ["a", "b"]).tags.toFinset).card) :=
  ⟨by decide, by decide,
    claim1_compareSlides_min (Slide.mk [] ["a", "b"]) (Slide.mk [] ["b", "c"])
      (by decide) (by decide)⟩

/-- C2: the total score of a slideshow is the sum of `compareSlides`
over every pair of consecutive slides, and slide sequences of length 0
or 1 score 0. -/
theorem claim2_total_score (ss : List Slide) :
    getScore ss = ((ss.zip ss.tail).map (fun p => compareSlides p.1 p.2)).sum ∧
      (∀ s : Slide, getScore [s] = 0) ∧ getScore ([] : List Slide) = 0 := by
  refine ⟨?_, fun _ => rfl, rfl⟩
  induction ss with
  | nil => rfl
  | cons a rest ih =>
    cases rest with
    | nil => rfl
    | cons b rest' =>
      simp only [getScore, List.tail_cons, List.zip_cons_cons, List.map_cons, List.sum_cons]
      rw [ih, List.tail_cons]

/-- C5: under the default sequencing policy (`Slide Sort Algorithm 1`),
the final slide sequence is exactly the built horizontal slides in
order followed by the built vertical slides in order. -/
theorem claim5_block_concatenation (tm : TagMap) (ps : List Photo) :
    solve tm ps =
      ((rankPhotos tm ps).filter (fun p => decide (p.orientation = "H"))).map
          createHorizontalSlide ++
        makeVerticalSlides
          ((rankPhotos tm ps).filter (fun p => decide (p.orientation = "V"))) := rfl

/-- C9: the adjacency score of two slides is at most the minimum of
their tag-list lengths, and adjacency scores and total scores are
non-negative. -/
theorem claim9_score_bounds (A B : Slide) (ss : List Slide) :
    compareSlides A B ≤ min A.tags.length B.tags.length ∧
      0 ≤ compareSlides A B ∧ 0 ≤ getScore ss := by
  refine ⟨?_, Nat.zero_le _, Nat.zero_le _⟩
  have h1 : countIncl A.tags B.tags ≤ A.tags.length := List.length_filter_le _ _
  have h2 : countExcl B.tags A.tags ≤ B.tags.length := List.length_filter_le _ _
  simp only [compareSlides]
  refine le_min (le_trans (Nat.min_le_left _ _) h1) ?_
  exact le_trans (le_trans (Nat.min_le_right _ _) (Nat.min_le_right _ _)) h2

/-- C10: for slides whose tag lists are duplicate-free, `compareSlides`
is commutative. -/
theorem claim10_compareSlides_comm (A B : Slide)
    (hA : A.tags.Nodup) (hB : B.tags.Nodup) :
    compareSlides A B = compareSlides B A := by
  simp only [compareSlides]
  rw [countIncl_eq_card _ _ hA, countIncl_eq_card _ _ hB,
    countExcl_eq_card A.tags _ hA, countExcl_eq_card B.tags _ hB,
    Finset.inter_comm, Nat.min_comm ((A.tags.toFinset \ B.tags.toFinset)).card]

theorem dedupFirstAux_mem (l : List String) :
    ∀ (seen : List String) (x : String),
      x ∈ dedupFirstAux seen l ↔ x ∈ l ∧ x ∉ seen := by
  induction l with
  | nil => intro seen x; simp [dedupFirstAux]
  | cons t ts ih =>
    intro seen x
    by_cases ht : t ∈ seen
    · rw [dedupFirstAux, if_pos ht, ih]
      constructor
      · rintro ⟨hx, hs⟩
        exact ⟨List.mem_cons_of_mem _ hx, hs⟩
      · rintro ⟨hx, hs⟩
        rcases List.mem_cons.mp hx with hx | hx
        · exact absurd (hx ▸ ht) hs
        · exact ⟨hx, hs⟩
    · rw [dedupFirstAux, if_neg ht]
      by_cases hxt : x = t
      · subst hxt
        simp [ht]
      · rw [List.mem_cons, ih]
        simp only [List.mem_cons, hxt, false_or, not_or]

theorem dedupFirstAux_nodup (l : List String) :
    ∀ seen : List String, (dedupFirstAux seen l).Nodup := by
  induction l with
  | nil => intro seen; simp [dedupFirstAux]
  | cons t ts ih =>
    intro seen
    by_cases ht : t ∈ seen
    · rw [dedupFirstAux, if_pos ht]
      exact ih seen
    · rw [dedupFirstAux, if_neg ht]
      refine List.nodup_cons.mpr ⟨?_, ih _⟩
      rw [dedupFirstAux_mem]
      rintro ⟨-, hs⟩
      exact hs (List.mem_cons_self _ _)

theorem mem_dedupFirst (l : List String) (x : String) :
    x ∈ dedupFirst l ↔ x ∈ l := by
  rw [dedupFirst, dedupFirstAux_mem]
  simp

theorem makeVerticalSlides_length :
    ∀ vs : List Photo, (makeVerticalSlides vs).length = vs.length / 2
  | [] => rfl
  | [_] => by
    simp only [makeVerticalSlides, List.length_nil, List.length_cons]
  | p1 :: p2 :: rest => by
    have ih := makeVerticalSlides_length rest
    simp only [makeVerticalSlides, List.length_cons, ih]
    omega

theorem makeVerticalSlides_get? :
    ∀ (vs : List Photo) (j : Nat),
      (makeVerticalSlides vs).get? j =
        (vs.get? (2 * j)).bind
          (fun a => (vs.get? (2 * j + 1)).map (fun b => createVerticalSlide a b))
  | [], j => by simp [makeVerticalSlides]
  | [p], j => by
    match j with
    | 0 => simp [makeVerticalSlides]
    | j + 1 =>
      have h : 2 * (j + 1) = 2 * j + 1 + 1 := by ring
      simp [makeVerticalSlides, h]
  | p1 :: p2 :: rest, 0 => by simp [makeVerticalSlides]
  | p1 :: p2 :: rest, j + 1 => by
    have ih := makeVerticalSlides_get? rest j
    have h1 : 2 * (j + 1) = 2 * j + 1 + 1 := by ring
    rw [h1]
    simp only [makeVerticalSlides, List.get?_cons_succ]
    exact ih

theorem makeVerticalSlides_take :
    ∀ vs : List Photo,
      makeVerticalSlides vs = makeVerticalSlides (vs.take (2 * (vs.length / 2)))
  | [] => rfl
  | [p] => by simp [makeVerticalSlides]
  | p1 :: p2 :: rest => by
    have ih := makeVerticalSlides_take rest
    have h : 2 * ((p1 :: p2 :: rest).length / 2) = 2 * (rest.length / 2) + 1 + 1 := by
      simp only [List.length_cons]
      omega
    rw [h, List.take_succ_cons, List.take_succ_cons]
    simp only [makeVerticalSlides]
    rw [← ih]

/-- C3: vertical photos are paired in ranked order (positions `2j` and
`2j + 1` form slide `j`), each pair becoming a slide of those two photos
whose tag list is the duplicate-free union of their tags; the number of
slides is `⌊n / 2⌋`, and an odd trailing photo is simply never consumed
(the output only depends on the first `2⌊n / 2⌋` photos). -/
theorem claim3_vertical_pairing (vs : List Photo) :
    (makeVerticalSlides vs).length = vs.length / 2 ∧
      (∀ j : Nat, (makeVerticalSlides vs).get? j =
        (vs.get? (2 * j)).bind
          (fun a => (vs.get? (2 * j + 1)).map (fun b => createVerticalSlide a b))) ∧
      makeVerticalSlides vs = makeVerticalSlides (vs.take (2 * (vs.length / 2))) ∧
      (∀ p1 p2 : Photo, (createVerticalSlide p1 p2).photos = [p1, p2] ∧
        (createVerticalSlide p1 p2).tags.Nodup ∧
        (∀ x, x ∈ (createVerticalSlide p1 p2).tags ↔ x ∈ p1.tags ∨ x ∈ p2.tags)) := by
  refine ⟨makeVerticalSlides_length vs, makeVerticalSlides_get? vs,
    makeVerticalSlides_take vs, fun p1 p2 => ⟨rfl, dedupFirstAux_nodup _ _, fun x => ?_⟩⟩
  show x ∈ dedupFirst (p1.tags ++ p2.tags) ↔ _
  rw [mem_dedupFirst, List.mem_append]

theorem insertRanked_perm (tm : TagMap) (x : Photo) (l : List Photo) :
    (insertRanked tm x l).Perm (x :: l) := by
  induction l with
  | nil => exact List.Perm.refl _
  | cons y ys ih =>
    rw [insertRanked]
    by_cases h : calculateTagScore tm y ≤ calculateTagScore tm x
    · rw [if_pos h]
    · rw [if_neg h]
      exact (ih.cons y).trans (List.Perm.swap x y ys)

theorem rankPhotos_perm (tm : TagMap) (ps : List Photo) :
    (rankPhotos tm ps).Perm ps := by
  induction ps with
  | nil => exact List.Perm.refl _
  | cons x xs ih =>
    exact (insertRanked_perm tm x (rankPhotos tm xs)).trans (ih.cons x)

theorem insertRanked_sorted (tm : TagMap) (x : Photo) (l : List Photo)
    (hl : List.Sorted (fun a b => calculateTagScore tm b ≤ calculateTagScore tm a) l) :
    List.Sorted (fun a b => calculateTagScore tm b ≤ calculateTagScore tm a)
      (insertRanked tm x l) := by
  induction l with
  | nil => simp [insertRanked]
  | cons y ys ih =>
    rw [List.sorted_cons] at hl
    obtain ⟨hy, hys⟩ := hl
    rw [insertRanked]
    by_cases h : calculateTagScore tm y ≤ calculateTagScore tm x
    · rw [if_pos h, List.sorted_cons]
      refine ⟨fun b hb => ?_, List.sorted_cons.mpr ⟨hy, hys⟩⟩
      rcases List.mem_cons.mp hb with hb | hb
      · exact hb ▸ h
      · exact le_trans (hy b hb) h
    · rw [if_neg h, List.sorted_cons]
      refine ⟨fun b hb => ?_, ih hys⟩
      have := (insertRanked_perm tm x ys).mem_iff.mp hb
      rcases List.mem_cons.mp this with hb' | hb'
      · exact hb' ▸ le_of_not_le h
      · exact hy b hb'

theorem rankPhotos_sorted (tm : TagMap) (ps : List Photo) :
    List.Sorted (fun a b => calculateTagScore tm b ≤ calculateTagScore tm a)
      (rankPhotos tm ps) := by
  induction ps with
  | nil => simp [rankPhotos]
  | cons x xs ih => exact insertRanked_sorted tm x _ ih

theorem insertRanked_filter (tm : TagMap) (s : Nat) (x : Photo) (l : List Photo) :
    (insertRanked tm x l).filter (fun p => decide (calculateTagScore tm p = s)) =
      if calculateTagScore tm x = s
      then x :: l.filter (fun p => decide (calculateTagScore tm p = s))
      else l.filter (fun p => decide (calculateTagScore tm p = s)) := by
  induction l with
  | nil =>
    by_cases hx : calculateTagScore tm x = s <;>
      simp [insertRanked, List.filter, hx]
  | cons y ys ih =>
    rw [insertRanked]
    by_cases h : calculateTagScore tm y ≤ calculateTagScore tm x
    · rw [if_pos h]
      by_cases hx : calculateTagScore tm x = s <;>
        simp [List.filter_cons, hx]
    · rw [if_neg h]
      have hyx : calculateTagScore tm x ≤ calculateTagScore tm y := le_of_not_le h
      by_cases hx : calculateTagScore tm x = s
      · have hy : ¬ calculateTagScore tm y = s := by omega
        simp [List.filter_cons, hx, hy, ih]
      · by_cases hy : calculateTagScore tm y = s <;>
          simp [List.filter_cons, hx, hy, ih]

theorem rankPhotos_filter (tm : TagMap) (s : Nat) (ps : List Photo) :
    (rankPhotos tm ps).filter (fun p => decide (calculateTagScore tm p = s)) =
      ps.filter (fun p => decide (calculateTagScore tm p = s)) := by
  induction ps with
  | nil => rfl
  | cons x xs ih =>
    rw [rankPhotos, insertRanked_filter, List.filter_cons]
    by_cases hx : calculateTagScore tm x = s
    · rw [if_pos hx, ih]
      simp [hx]
    · rw [if_neg hx, ih]
      simp [hx]

/-- C4: the ranking pass is a permutation of the catalog that is sorted
in descending order of `calculateTagScore` (the sum over the photo's
tags of the length of the tag's `photoIds` list), and it is stable: for
every score value, the photos having that score appear in the output in
exactly their original input order. -/
theorem claim4_ranking (tm : TagMap) (ps : List Photo) :
    (rankPhotos tm ps).Perm ps ∧
      List.Sorted (fun a b => calculateTagScore tm b ≤ calculateTagScore tm a)
        (rankPhotos tm ps) ∧
      (∀ s : Nat, (rankPhotos tm ps).filter (fun p => decide (calculateTagScore tm p = s)) =
        ps.filter (fun p => decide (calculateTagScore tm p = s))) :=
  ⟨rankPhotos_perm tm ps, rankPhotos_sorted tm ps, fun s => rankPhotos_filter tm s ps⟩

theorem horizontalSlides_flatMap (hs : List Photo) :
    (hs.map createHorizontalSlide).flatMap Slide.photos = hs := by
  induction hs with
  | nil => rfl
  | cons p rest ih => simp [createHorizontalSlide, ih]

theorem makeVerticalSlides_flatMap :
    ∀ vs : List Photo,
      (makeVerticalSlides vs).flatMap Slide.photos = vs.take (2 * (vs.length / 2))
  | [] => rfl
  | [p] => by simp [makeVerticalSlides]
  | p1 :: p2 :: rest => by
    have ih := makeVerticalSlides_flatMap rest
    have h : 2 * ((p1 :: p2 :: rest).length / 2) = 2 * (rest.length / 2) + 1 + 1 := by
      simp only [List.length_cons]
      omega
    rw [h, List.take_succ_cons, List.take_succ_cons]
    simp only [makeVerticalSlides, List.flatMap_cons]
    rw [ih]
    rfl

theorem filter_orientation_perm (l : List Photo)
    (h : ∀ p ∈ l, p.orientation = "H" ∨ p.orientation = "V") :
    (l.filter (fun p => decide (p.orientation = "H")) ++
      l.filter (fun p => decide (p.orientation = "V"))).Perm l := by
  have hv : l.filter (fun p => decide (p.orientation = "V")) =
      l.filter (fun p => !decide (p.orientation = "H")) := by
    apply List.filter_congr
    intro p hp
    rcases h p hp with h1 | h1 <;> rw [h1] <;> decide
  rw [hv]
  exact List.filter_append_perm _ l

theorem solve_flatMap (tm : TagMap) (ps : List Photo) :
    (solve tm ps).flatMap Slide.photos =
      (rankPhotos tm ps).filter (fun p => decide (p.orientation = "H")) ++
        ((rankPhotos tm ps).filter (fun p => decide (p.orientation = "V"))).take
          (2 * (((rankPhotos tm ps).filter (fun p => decide (p.orientation = "V"))).length / 2)) := by
  simp only [solve]
  rw [List.flatMap_append, horizontalSlides_flatMap, makeVerticalSlides_flatMap]

theorem solve_photos_perm (tm : TagMap) (ps : List Photo)
    (hor : ∀ p ∈ ps, p.orientation = "H" ∨ p.orientation = "V") :
    ((solve tm ps).flatMap Slide.photos ++
      ((rankPhotos tm ps).filter (fun p => decide (p.orientation = "V"))).drop
        (2 * (((rankPhotos tm ps).filter
          (fun p => decide (p.orientation = "V"))).length / 2))).Perm ps := by
  rw [solve_flatMap, List.append_assoc, List.take_append_drop]
  refine (filter_orientation_perm _ ?_).trans (rankPhotos_perm tm ps)
  intro p hp
  exact hor p ((rankPhotos_perm tm ps).mem_iff.mp hp)

theorem perm_count_one {ids full : List Nat} (hperm : ids.Perm full)
    (hnd : full.Nodup) (x : Nat) (hx : x ∈ full) : ids.count x = 1 := by
  rw [hperm.count_eq]
  exact List.count_eq_one_of_mem hnd hx

theorem perm_count_drop {ids : List Nat} {q : Nat} {full : List Nat}
    (hperm : (ids ++ [q]).Perm full) (hnd : full.Nodup) (hq : q ∈ full) :
    ids.count q = 0 ∧ ∀ x ∈ full, x ≠ q → ids.count x = 1 := by
  constructor
  · have h1 : (ids ++ [q]).count q = 1 := by
      rw [hperm.count_eq]
      exact List.count_eq_one_of_mem hnd hq
    rw [List.count_append] at h1
    have h2 : List.count q [q] = 1 := by simp
    omega
  · intro x hx hne
    have h1 : (ids ++ [q]).count x = 1 := by
      rw [hperm.count_eq]
      exact List.count_eq_one_of_mem hnd hx
    rw [List.count_append] at h1
    have h2 : List.count x [q] = 0 := by
      simp [List.count_singleton, Ne.symm hne]
    omega

/-- C8: every photo id of the catalog occurs in exactly one slide of
the final slide sequence, except that when the number of vertical
photos is odd there is exactly one vertical photo whose id occurs in no
slide.  (The catalog is assumed well-formed: distinct ids, orientation
`"H"` or `"V"`.) -/
theorem claim8_partition (tm : TagMap) (ps : List Photo)
    (hid : (ps.map Photo.id).Nodup)
    (hor : ∀ p ∈ ps, p.orientation = "H" ∨ p.orientation = "V") :
    ((ps.filter (fun p => decide (p.orientation = "V"))).length % 2 = 0 →
      ∀ p ∈ ps,
        (((solve tm ps).flatMap Slide.photos).map Photo.id).count p.id = 1) ∧
    ((ps.filter (fun p => decide (p.orientation = "V"))).length % 2 = 1 →
      ∃ q, q ∈ ps ∧ q.orientation = "V" ∧
        (((solve tm ps).flatMap Slide.photos).map Photo.id).count q.id = 0 ∧
        ∀ p ∈ ps, p.id ≠ q.id →
          (((solve tm ps).flatMap Slide.photos).map Photo.id).count p.id = 1) := by
  have hperm := solve_photos_perm tm ps hor
  have hlen : ((rankPhotos tm ps).filter (fun p => decide (p.orientation = "V"))).length =
      (ps.filter (fun p => decide (p.orientation = "V"))).length :=
    ((rankPhotos_perm tm ps).filter _).length_eq
  constructor
  · intro heven p hp
    have hdrop : ((rankPhotos tm ps).filter (fun p => decide (p.orientation = "V"))).drop
        (2 * (((rankPhotos tm ps).filter
          (fun p => decide (p.orientation = "V"))).length / 2)) = [] := by
      apply List.drop_eq_nil_of_le
      omega
    rw [hdrop, List.append_nil] at hperm
    exact perm_count_one (hperm.map Photo.id) hid p.id (List.mem_map_of_mem Photo.id hp)
  · intro hodd
    have hdlen : (((rankPhotos tm ps).filter (fun p => decide (p.orientation = "V"))).drop
        (2 * (((rankPhotos tm ps).filter
          (fun p => decide (p.orientation = "V"))).length / 2))).length = 1 := by
      rw [List.length_drop]
      omega
    obtain ⟨q, hq⟩ := List.length_eq_one.mp hdlen
    have hqmem : q ∈ (rankPhotos tm ps).filter (fun p => decide (p.orientation = "V")) :=
      List.drop_subset _ _ (hq ▸ List.mem_singleton_self q)
    have hqV : q.orientation = "V" := by
      have h2 := (List.mem_filter.mp hqmem).2
      simpa using h2
    have hqps : q ∈ ps := (rankPhotos_perm tm ps).mem_iff.mp (List.mem_of_mem_filter hqmem)
    rw [hq] at hperm
    have hperm2 : ((((solve tm ps).flatMap Slide.photos).map Photo.id) ++ [q.id]).Perm
        (ps.map Photo.id) := by
      have h3 := hperm.map Photo.id
      simpa using h3
    obtain ⟨h0, h1⟩ := perm_count_drop hperm2 hid (List.mem_map_of_mem Photo.id hqps)
    exact ⟨q, hqps, hqV, h0,
      fun p hp hne => h1 p.id (List.mem_map_of_mem Photo.id hp) hne⟩

theorem claim8_witness :
    (ps8.map Photo.id).Nodup ∧
      (∀ p ∈ ps8, p.orientation = "H" ∨ p.orientation = "V") ∧
      (((ps8.filter (fun p => decide (p.orientation = "V"))).length % 2 = 0 →
          ∀ p ∈ ps8,
            (((solve [] ps8).flatMap Slide.photos).map Photo.id).count p.id = 1) ∧
        ((ps8.filter (fun p => decide (p.orientation = "V"))).length % 2 = 1 →
          ∃ q, q ∈ ps8 ∧ q.orientation = "V" ∧
            (((solve [] ps8).flatMap Slide.photos).map Photo.id).count q.id = 0 ∧
            ∀ p ∈ ps8, p.id ≠ q.id →
              (((solve [] ps8).flatMap Slide.photos).map Photo.id).count p.id = 1)) :=
  ⟨by decide, by decide, claim8_partition [] ps8 (by decide) (by decide)⟩

theorem claim10_witness :
    (Slide.mk [] ["x", "y"]).tags.Nodup ∧ (Slide.mk [] ["y", "z"]).tags.Nodup ∧
      compareSlides (Slide.mk [] ["x", "y"]) (Slide.mk [] ["y", "z"]) =
        compareSlides (Slide.mk [] ["y", "z"]) (Slide.mk [] ["x", "y"]) :=
  ⟨by decide, by decide,
    claim10_compareSlides_comm (Slide.mk [] ["x", "y"]) (Slide.mk [] ["y", "z"])
      (by decide) (by decide)⟩

theorem tagGet_tagSet (m : TagMapP) (t t' : Token) (v : List Nat) :
    tagGet (tagSet m t v) t' = if t' = t then some v else tagGet m t' := by
  induction m with
  | nil =>
    simp only [tagSet, tagGet]
    by_cases h : t' = t
    · simp [h]
    · rw [if_neg (fun hc => h hc.symm), if_neg h]
  | cons e es ih =>
    simp only [tagSet]
    by_cases he : e.1 = t
    · rw [if_pos he]
      by_cases h : t' = t
      · simp [tagGet, h]
      · have h2 : ¬ t = t' := fun hc => h hc.symm
        simp [tagGet, h, h2, he]
    · rw [if_neg he]
      by_cases h2 : e.1 = t'
      · have hne : ¬ t' = t := fun hc => he (by rw [h2, hc])
        simp [tagGet, h2, hne]
      · simp [tagGet, h2, ih]

theorem mem_keys_tagSet (m : TagMapP) (t : Token) (v : List Nat) (x : Token) :
    x ∈ (tagSet m t v).map Prod.fst ↔ x ∈ m.map Prod.fst ∨ x = t := by
  induction m with
  | nil => simp [tagSet]
  | cons e es ih =>
    simp only [tagSet]
    by_cases he : e.1 = t
    · rw [if_pos he]
      simp only [List.map_cons, List.mem_cons, he, ih]
      tauto
    · rw [if_neg he]
      simp only [List.map_cons, List.mem_cons, ih]
      tauto

theorem tagSet_keys_nodup (m : TagMapP) (t : Token) (v : List Nat)
    (h : (m.map Prod.fst).Nodup) : ((tagSet m t v).map Prod.fst).Nodup := by
  induction m with
  | nil => simp [tagSet]
  | cons e es ih =>
    rw [List.map_cons, List.nodup_cons] at h
    obtain ⟨h1, h2⟩ := h
    simp only [tagSet]
    by_cases he : e.1 = t
    · rw [if_pos he, List.map_cons, List.nodup_cons]
      exact ⟨he ▸ h1, h2⟩
    · rw [if_neg he, List.map_cons, List.nodup_cons]
      refine ⟨?_, ih h2⟩
      rw [mem_keys_tagSet]
      rintro (hc | hc)
      · exact h1 hc
      · exact he hc

theorem tagGet_of_mem (m : TagMapP) (h : (m.map Prod.fst).Nodup)
    (e : Token × List Nat) (he : e ∈ m) : tagGet m e.1 = some e.2 := by
  induction m with
  | nil => cases he
  | cons f fs ih =>
    rw [List.map_cons, List.nodup_cons] at h
    obtain ⟨h1, h2⟩ := h
    rcases List.mem_cons.mp he with he | he
    · subst he
      simp [tagGet]
    · have hne : ¬ f.1 = e.1 := by
        intro hc
        apply h1
        rw [hc]
        exact List.mem_map_of_mem Prod.fst he
      simp [tagGet, hne, ih h2 he]

theorem tagGet_mem (m : TagMapP) (t : Token) (v : List Nat)
    (h : tagGet m t = some v) : (t, v) ∈ m := by
  induction m with
  | nil => cases h
  | cons e es ih =>
    obtain ⟨t0, v0⟩ := e
    rw [tagGet] at h
    by_cases he : (t0, v0).1 = t
    · rw [if_pos he] at h
      injection h with h
      simp only [List.mem_cons]
      left
      rw [← he, ← h]
    · rw [if_neg he] at h
      exact List.mem_cons_of_mem _ (ih h)

theorem tagGet_registerTag (m : TagMapP) (id : Nat) (tag t : Token) :
    tagGet (registerTag m id tag) t =
      if t = tag then some ((tagGet m tag).getD [] ++ [id]) else tagGet m t := by
  unfold registerTag
  cases h : tagGet m tag <;> simp [h, tagGet_tagSet]

theorem registerTag_keys_nodup (m : TagMapP) (id : Nat) (tag : Token)
    (h : (m.map Prod.fst).Nodup) :
    ((registerTag m id tag).map Prod.fst).Nodup := by
  unfold registerTag
  cases tagGet m tag <;> exact tagSet_keys_nodup _ _ _ h

theorem tagGet_foldl_registerTag (id : Nat) :
    ∀ (ts : List Token) (m : TagMapP), ts.Nodup → ∀ t : Token,
      tagGet (ts.foldl (fun acc tag => registerTag acc id tag) m) t =
        if t ∈ ts then some ((tagGet m t).getD [] ++ [id]) else tagGet m t
  | [], m, _, t => by simp
  | t0 :: ts, m, hnd, t => by
    rw [List.foldl_cons]
    obtain ⟨h0, hnd2⟩ := List.nodup_cons.mp hnd
    rw [tagGet_foldl_registerTag id ts (registerTag m id t0) hnd2 t]
    by_cases ht0 : t = t0
    · subst ht0
      rw [if_neg h0, if_pos (List.mem_cons_self _ _), tagGet_registerTag, if_pos rfl]
    · by_cases hts : t ∈ ts
      · rw [if_pos hts, if_pos (List.mem_cons_of_mem _ hts), tagGet_registerTag,
          if_neg ht0]
      · rw [if_neg hts, tagGet_registerTag, if_neg ht0,
          if_neg (by simp [List.mem_cons, ht0, hts])]

theorem foldl_registerTag_keys_nodup (id : Nat) :
    ∀ (ts : List Token) (m : TagMapP), (m.map Prod.fst).Nodup →
      ((ts.foldl (fun acc tag => registerTag acc id tag) m).map Prod.fst).Nodup
  | [], _, h => h
  | t0 :: ts, m, h => by
    rw [List.foldl_cons]
    exact foldl_registerTag_keys_nodup id ts _ (registerTag_keys_nodup m id t0 h)

theorem tagGet_registerPhoto (m : TagMapP) (p : PhotoP) (hnd : p.tags.Nodup)
    (t : Token) :
    tagGet (registerPhoto m p) t =
      if t ∈ p.tags then some ((tagGet m t).getD [] ++ [p.id]) else tagGet m t :=
  tagGet_foldl_registerTag p.id p.tags m hnd t

theorem registerPhoto_keys_nodup (m : TagMapP) (p : PhotoP)
    (h : (m.map Prod.fst).Nodup) :
    ((registerPhoto m p).map Prod.fst).Nodup :=
  foldl_registerTag_keys_nodup p.id p.tags m h

theorem carriers_append (ps : List PhotoP) (photo : PhotoP) (t : Token) :
    carriers (ps ++ [photo]) t =
      carriers ps t ++ if t ∈ photo.tags then [photo.id] else [] := by
  by_cases ht : t ∈ photo.tags <;>
    simp [carriers, List.filter_append, ht]

theorem processLinesAux_inv :
    ∀ (lines : List (List Char)) (idx : Nat) (ps : List PhotoP) (m : TagMapP),
      (∀ line ∈ lines, line ≠ [] → (readPhoto (trimChars line) 0).tags.Nodup) →
      (∀ p ∈ ps, p.tags.Nodup) →
      ((m.map Prod.fst).Nodup) →
      (∀ e ∈ m, e.2 = carriers ps e.1) →
      (∀ t : Token, tagGet m t = none → carriers ps t = []) →
      ((ps.map PhotoP.id).Nodup) →
      (∀ p ∈ ps, p.id < idx) →
      (∀ p ∈ (processLinesAux lines idx ps m).1, p.tags.Nodup) ∧
        (((processLinesAux lines idx ps m).2.map Prod.fst).Nodup) ∧
        (∀ e ∈ (processLinesAux lines idx ps m).2,
          e.2 = carriers (processLinesAux lines idx ps m).1 e.1) ∧
        (((processLinesAux lines idx ps m).1.map PhotoP.id).Nodup)
  | [], _, _, _, _, hp, hk, hm, _, hi, _ => ⟨hp, hk, hm, hi⟩
  | line :: rest, idx, ps, m, hl, hp, hk, hm, hn, hi, hb => by
    rw [processLinesAux]
    by_cases hline : line = []
    · rw [if_pos hline]
      exact processLinesAux_inv rest idx ps m
        (fun l h2 => hl l (List.mem_cons_of_mem _ h2)) hp hk hm hn hi hb
    · rw [if_neg hline]
      have htags : (readPhoto (trimChars line) idx).tags.Nodup :=
        hl line (List.mem_cons_self _ _) hline
      have hidv : (readPhoto (trimChars line) idx).id = idx := rfl
      have hp2 : ∀ p ∈ ps ++ [readPhoto (trimChars line) idx], p.tags.Nodup := by
        intro p hmem
        rcases List.mem_append.mp hmem with h | h
        · exact hp p h
        · rw [List.mem_singleton] at h
          subst h
          exact htags
      have hk2 : ((registerPhoto m (readPhoto (trimChars line) idx)).map
          Prod.fst).Nodup :=
        registerPhoto_keys_nodup m _ hk
      have hm2 : ∀ e ∈ registerPhoto m (readPhoto (trimChars line) idx),
          e.2 = carriers (ps ++ [readPhoto (trimChars line) idx]) e.1 := by
        intro e hmem
        have hget := tagGet_of_mem _ hk2 e hmem
        rw [tagGet_registerPhoto m _ htags e.1] at hget
        rw [carriers_append]
        by_cases ht : e.1 ∈ (readPhoto (trimChars line) idx).tags
        · rw [if_pos ht] at hget
          rw [if_pos ht]
          injection hget with hget
          rw [← hget, hidv]
          cases hq : tagGet m e.1 with
          | none =>
            rw [hn e.1 hq]
            rfl
          | some v =>
            have hv := hm (e.1, v) (tagGet_mem m e.1 v hq)
            simp only at hv
            rw [← hv]
            rfl
        · rw [if_neg ht] at hget
          rw [if_neg ht, List.append_nil]
          exact hm (e.1, e.2) (tagGet_mem m e.1 e.2 hget)
      have hn2 : ∀ t : Token,
          tagGet (registerPhoto m (readPhoto (trimChars line) idx)) t = none →
          carriers (ps ++ [readPhoto (trimChars line) idx]) t = [] := by
        intro t hnone
        rw [tagGet_registerPhoto m _ htags t] at hnone
        by_cases ht : t ∈ (readPhoto (trimChars line) idx).tags
        · rw [if_pos ht] at hnone
          cases hnone
        · rw [if_neg ht] at hnone
          rw [carriers_append, if_neg ht, List.append_nil]
          exact hn t hnone
      have hi2 : ((ps ++ [readPhoto (trimChars line) idx]).map PhotoP.id).Nodup := by
        rw [List.map_append]
        refine List.Nodup.append hi (List.nodup_singleton _) ?_
        intro a ha hmem2
        rw [List.map_singleton, List.mem_singleton] at hmem2
        obtain ⟨p, hpmem, hpid⟩ := List.mem_map.mp ha
        have hlt := hb p hpmem
        rw [hmem2, hidv] at hpid
        omega
      have hb2 : ∀ p ∈ ps ++ [readPhoto (trimChars line) idx], p.id < idx + 1 := by
        intro p hmem
        rcases List.mem_append.mp hmem with h | h
        · exact Nat.lt_succ_of_lt (hb p h)
        · rw [List.mem_singleton] at h
          subst h
          rw [hidv]
          exact Nat.lt_succ_self idx
      exact processLinesAux_inv rest (idx + 1) _ _
        (fun l h2 => hl l (List.mem_cons_of_mem _ h2)) hp2 hk2 hm2 hn2 hi2 hb2

/-- C6 counterexample: two concrete inputs refute the claim as stated.
On the line `H 2 a a` (a repeated listed tag) the stored tag list of
the parsed photo contains a duplicate, and reading a file consisting of
that line appends photo id 0 twice to the `photoIds` list of tag `a`,
whose length 2 then differs from the single photo carrying the tag.
On the line `H 4 a b` (a declared count exceeding the listed tags by
two) the stored tag list contains the `undefined` token twice, and
photo id 0 is likewise appended twice to the entry keyed by
`undefined`. -/
theorem claim6_counterexample :
    (¬ ((readPhoto ("H 2 a a".data) 0).tags.Nodup) ∧
      tagGet (readFileModel ("1\nH 2 a a".data)).2 (some ['a']) = some [0, 0] ∧
      (readFileModel ("1\nH 2 a a".data)).1.length = 1) ∧
      (¬ ((readPhoto ("H 4 a b".data) 0).tags.Nodup) ∧
        tagGet (readFileModel ("1\nH 4 a b".data)).2 none = some [0, 0] ∧
        (readFileModel ("1\nH 4 a b".data)).1.length = 1) := by
  refine ⟨⟨by decide, by decide, by decide⟩, by decide, by decide, by decide⟩

/-- C6 (amended): for every input file in which every non-empty line
declares its tag count as a plain digit string (the documented
`<tagCount:int>` shape, on which `parseCount` coincides with the
source's `parseFloat` loop bound) and parses to a duplicate-free
stored tag list — its listed tags pairwise distinct and at most one
`undefined` token stored — every stored photo tag list is
duplicate-free, every tag entry's `photoIds` list is duplicate-free
(each photo id is appended at most once), and the length of each
entry's `photoIds` list equals the number of photos carrying that tag.
The digit-count condition does not alter the model's behaviour; it
confines the statement to inputs on which the reader model is exact. -/
theorem claim6_tag_registration (content : List Char)
    (h : ∀ line ∈ (splitOnChar '\n' content).tail, line ≠ [] →
      digitCountToken line = true ∧ (readPhoto (trimChars line) 0).tags.Nodup) :
    (∀ p ∈ (readFileModel content).1, p.tags.Nodup) ∧
      (∀ e ∈ (readFileModel content).2, e.2.Nodup) ∧
      (∀ e ∈ (readFileModel content).2,
        e.2.length =
          ((readFileModel content).1.filter
            (fun p => decide (e.1 ∈ p.tags))).length) := by
  simp only [readFileModel]
  have hinv := processLinesAux_inv (splitOnChar '\n' content).tail 0 [] []
    (fun l hl hne => (h l hl hne).2)
    (by intro p hp; cases hp) (by simp) (by intro e he; cases he)
    (fun t _ => rfl) (by simp) (by intro p hp; cases hp)
  obtain ⟨h1, h2, h3, h4⟩ := hinv
  refine ⟨h1, ?_, ?_⟩
  · intro e he
    rw [h3 e he, carriers]
    exact ((List.filter_sublist _).map PhotoP.id).nodup h4
  · intro e he
    rw [h3 e he, carriers, List.length_map]

theorem claim6_witness :
    (∀ line ∈ (splitOnChar '\n' ("2\nH 2 a b\nV 2 a c".data)).tail, line ≠ [] →
      digitCountToken line = true ∧ (readPhoto (trimChars line) 0).tags.Nodup) ∧
      ((∀ p ∈ (readFileModel ("2\nH 2 a b\nV 2 a c".data)).1, p.tags.Nodup) ∧
        (∀ e ∈ (readFileModel ("2\nH 2 a b\nV 2 a c".data)).2, e.2.Nodup) ∧
        (∀ e ∈ (readFileModel ("2\nH 2 a b\nV 2 a c".data)).2,
          e.2.length =
            ((readFileModel ("2\nH 2 a b\nV 2 a c".data)).1.filter
              (fun p => decide (e.1 ∈ p.tags))).length)) :=
  ⟨by decide, claim6_tag_registration ("2\nH 2 a b\nV 2 a c".data) (by decide)⟩

/-- C7: contrary to the propagation policy, a malformed line does not
fail the file.  On the file `3\nH 1 a\nH x\nV 1 b` the malformed line
`H x` (non-numeric tag count) silently produces photo id 1 with an
empty tag list, and the line after it is still read as photo id 2. -/
theorem claim7_divergence :
    (readFileModel ("3\nH 1 a\nH x\nV 1 b".data)).1.map
        (fun p => (p.id, p.tags.length)) = [(0, 1), (1, 0), (2, 1)] := by
  decide
